import Mathlib

/-!
# Verification of the Takeout metadata embedder's reconciliation engine

This file gives a shallow embedding, in Lean 4, of the pure core of the
`google-takeout-metadata-embedder` program: filename/record matching
(`lib/scanner.py`), sidecar timestamp extraction (`lib/metadata.py`),
the filesystem-mtime fallback and the idempotency check
(`lib/exif_reader.py`), output-path planning (`lib/organizer.py`), the
processing ledger (`lib/state.py`), and the per-file processing decision
(`main.py`).  Filesystem access, `datetime.now()` and external-tool
calls are turned into explicit parameters; filenames are `List Char`
(Python `str`); directories and filesystems are lists of entries.
-/

/-- Filenames and path components, Python `str` modelled as `List Char`. -/
abbrev Name := List Char

/-- A filesystem path as a list of components (`pathlib.Path.parts`). -/
abbrev PyPath := List Name

/-! ## `pathlib` stem/suffix

CPython `PurePath.suffix` takes `i = name.rfind('.')` and returns
`name[i:]` when `0 < i < len(name) - 1`, else `''`; `stem` is the
complementary part.  We model the split index directly. -/

/-- Index of the last `'.'` in a name, if any (CPython `str.rfind('.')`). -/
def rfindDot : Name → Option Nat
  | [] => none
  | c :: cs =>
    match rfindDot cs with
    | some i => some (i + 1)
    | none => if c == '.' then some 0 else none

/-- The split position used by `PurePath.stem`/`PurePath.suffix`:
the last dot's index when it is neither the leading character nor the
final one, else no split. -/
def pySplitIdx (n : Name) : Option Nat :=
  match rfindDot n with
  | some i => if 0 < i ∧ i < n.length - 1 then some i else none
  | none => none

/-- `PurePath.stem` of a filename. -/
def pyStem (n : Name) : Name :=
  match pySplitIdx n with
  | some i => n.take i
  | none => n

/-- `PurePath.suffix` of a filename. -/
def pySuffix (n : Name) : Name :=
  match pySplitIdx n with
  | some i => n.drop i
  | none => []

/-! ## Digit-run extraction (`lib/scanner.py`, `extract_number_from_filename`)

`re.findall(r'\d{3,}', s)` returns, in order, every maximal run of
consecutive digits of length at least 3; `re.findall(r'\d+', s)` returns
every maximal run.  `digitRuns` computes the list of maximal digit runs
in order; the regex calls are length-filters over it. -/

/-- Accumulating scanner for maximal digit runs: `acc` holds the
(reversed) digits of the run currently being read. -/
def digitRunsAux : Name → List Char → List (List Char)
  | [], acc => if acc.isEmpty then [] else [acc.reverse]
  | c :: cs, acc =>
    if c.isDigit then digitRunsAux cs (c :: acc)
    else if acc.isEmpty then digitRunsAux cs []
    else acc.reverse :: digitRunsAux cs []

/-- All maximal runs of consecutive digits of a string, in order
(`re.findall(r'\d+', s)`). -/
def digitRuns (n : Name) : List (List Char) := digitRunsAux n []

/-- Numeric value of a digit string (Python `int` applied to a run of
ASCII digits). -/
def digitsVal (r : List Char) : Nat :=
  r.foldl (fun a c => 10 * a + (c.toNat - 48)) 0

/-- `lib/scanner.py` `extract_number_from_filename`: value of the first
maximal digit run of length ≥ 3 (`re.findall(r'\d{3,}', s)[0]`);
otherwise the value of the last maximal digit run of any length
(`re.findall(r'\d+', s)[-1]`); otherwise `None`. -/
def extract_number_from_filename (filename : Name) : Option Nat :=
  match (digitRuns filename).filter (fun r => decide (3 ≤ r.length)) with
  | r :: _ => some (digitsVal r)
  | [] =>
    match (digitRuns filename).getLast? with
    | some r => some (digitsVal r)
    | none => none

example : extract_number_from_filename "IMG_3689.JPG".toList = some 3689 := by decide
example : extract_number_from_filename "photo12.jpg".toList = some 12 := by decide
example : extract_number_from_filename "nodigits.gif".toList = none := by decide
example : extract_number_from_filename "a123b45678".toList = some 123 := by decide

/-! ## Similarity guesser (`lib/scanner.py`, `guess_date_from_similar_files`)

The date payload is an opaque type `α` (the code never inspects the
`datetime` values it ranks, it only returns one). -/

/-- `re.search(r'^([^\d]*)', stem).group(1)`: the leading run of
non-digit characters of a stem. -/
def nonDigitPre (stem : Name) : Name := stem.takeWhile (fun c => !c.isDigit)

/-- The `(distance, date)` pairs the guesser accumulates: index entries
whose `Path.stem` starts with the target's non-digit prefix and whose
name yields an extractable number, tagged with the absolute distance of
that number to the target number. -/
def similarCandidates {α : Type} (pre : Name) (target : Nat) (idx : List (Name × α)) :
    List (Nat × α) :=
  idx.filterMap (fun e =>
    if pre.isPrefixOf (pyStem e.1) then
      match extract_number_from_filename e.1 with
      | some fn => some (((fn : Int) - (target : Int)).natAbs, e.2)
      | none => none
    else none)

/-- The earliest element of minimal first component.  This is the net
effect of the code's `similar_files.sort(key=lambda x: x[0])` (Python's
sort is stable) followed by `similar_files[0]`. -/
def firstMinBy {α : Type} : List (Nat × α) → Option (Nat × α)
  | [] => none
  | x :: xs =>
    match firstMinBy xs with
    | none => some x
    | some y => if y.1 < x.1 then some y else some x

/-- `lib/scanner.py` `guess_date_from_similar_files`: among index
entries with a matching stem prefix and an extractable number, take the
closest by absolute numeric distance and return its date iff that
distance is ≤ 100. -/
def guess_date_from_similar_files {α : Type} (media : Name) (idx : List (Name × α)) :
    Option α :=
  if idx.isEmpty then none
  else
    match extract_number_from_filename media with
    | none => none
    | some t =>
      match firstMinBy (similarCandidates (nonDigitPre (pyStem media)) t idx) with
      | none => none
      | some (d, dt) => if d ≤ 100 then some dt else none

/-! ## File/record matcher (`lib/scanner.py`, `find_matching_json`)

A media file's parent directory is a `List DirEntry` in directory
iteration order (the order `Path.glob` yields entries).  `exists()`
checks are name-membership; opening and `json.load`-ing an entry is
collapsed into its `parses` flag and, when parsing succeeds, the value
of `metadata.get('title', '')` into its `title` field. -/

/-- The `title` field of a parsed record: missing (`get` yields the
default `''`), a string, or some non-string JSON value (which compares
unequal to every filename). -/
inductive TitleVal : Type
  | missing : TitleVal
  | strv : Name → TitleVal
  | nonstr : TitleVal
deriving DecidableEq

/-- One directory entry: its filename, whether `json.load` on it
succeeds, and its `title` field when it does. -/
structure DirEntry : Type where
  name : Name
  parses : Bool
  title : TitleVal
deriving DecidableEq

/-- `metadata.get('title', '') == media_name`. -/
def titleMatches : TitleVal → Name → Bool
  | .missing, m => m.isEmpty
  | .strv s, m => s == m
  | .nonstr, _ => false

/-- `(parent / n).exists()` against the modelled directory. -/
def dirHas (dir : List DirEntry) (n : Name) : Bool := dir.any (fun e => e.name == n)

/-- `f"{media_name}({i}).json"`. -/
def numberedName (media : Name) (i : Nat) : Name :=
  media ++ '(' :: ((Nat.repr i).toList ++ ").json".toList)

/-- Whether a name matches the glob pattern `f"{media_name}*.json"`:
it starts with the media filename, ends with `.json`, and is long
enough for both to fit disjointly. -/
def globJson (media : Name) (n : Name) : Bool :=
  media.isPrefixOf n && ".json".toList.isSuffixOf n &&
    decide (media.length + 5 ≤ n.length)

/-- The predicate of the matcher's third pass over the glob results:
a glob match that is not a `._` resource fork, parses as JSON, and
whose title equals the media filename. -/
def fuzzyCandidate (media : Name) (e : DirEntry) : Bool :=
  globJson media e.name && !(("._".toList).isPrefixOf e.name) &&
    e.parses && titleMatches e.title media

/-- `lib/scanner.py` `find_matching_json`: exact name, then the first
existing numbered suffix for N in 1..99, then the first glob match that
is not a resource fork, parses, and has a matching title. -/
def find_matching_json (dir : List DirEntry) (media : Name) : Option Name :=
  let exact := media ++ ".json".toList
  if dirHas dir exact then some exact
  else
    match (List.range' 1 99).find? (fun i => dirHas dir (numberedName media i)) with
    | some i => some (numberedName media i)
    | none =>
      match dir.find? (fuzzyCandidate media) with
      | some e => some e.name
      | none => none

example :
    find_matching_json
      [⟨"a.jpg(2).json".toList, true, .missing⟩, ⟨"a.jpg.json".toList, true, .missing⟩]
      "a.jpg".toList = some "a.jpg.json".toList := by decide

example :
    find_matching_json
      [⟨"a.jpg(2).json".toList, true, .missing⟩, ⟨"a.jpg(1).json".toList, true, .missing⟩]
      "a.jpg".toList = some "a.jpg(1).json".toList := by decide

example :
    find_matching_json
      [⟨"a.jpg.extra.json".toList, true, .strv "a.jpg".toList⟩]
      "a.jpg".toList = some "a.jpg.extra.json".toList := by decide

/-! ## Sidecar timestamp extraction (`lib/metadata.py`, `extract_datetime`)

A `timestamp` field value is either a JSON string or a JSON integer
(`TVal`); an absent field (or an absent enclosing object, since
`metadata.get('photoTakenTime', {}).get('timestamp')` collapses both)
is `none`.  `int(x)` on a string accepts an optional sign followed by
digits (the model omits `int`'s tolerance for surrounding whitespace
and inner underscores); `datetime.fromtimestamp` succeeds exactly on
epoch seconds whose UTC date falls in years 1..9999, and raises
otherwise.  Python exceptions are an `Except` layer; the result
timestamp is kept as epoch seconds. -/

/-- A JSON scalar sitting in a `timestamp` field. -/
inductive TVal : Type
  | vstr : Name → TVal
  | vint : Int → TVal
deriving DecidableEq

/-- Python truthiness of such a value (`if timestamp:`). -/
def truthy : TVal → Bool
  | .vstr s => !s.isEmpty
  | .vint n => n != 0

/-- A nonempty all-digit string's value. -/
def parseDigitsName (s : Name) : Option Nat :=
  if !s.isEmpty && s.all Char.isDigit then some (digitsVal s) else none

/-- Python `int(x)` on a timestamp value: identity on integers; on
strings, an optional sign followed by decimal digits, else a
`ValueError` (`none`). -/
def pyIntOf : TVal → Option Int
  | .vint n => some n
  | .vstr s =>
    match s with
    | '+' :: rest => (parseDigitsName rest).map (fun v => (v : Int))
    | '-' :: rest => (parseDigitsName rest).map (fun v => -(v : Int))
    | _ => (parseDigitsName s).map (fun v => (v : Int))

/-- Smallest epoch second `datetime.fromtimestamp` accepts
(0001-01-01T00:00:00 UTC). -/
def tsMin : Int := -62135596800

/-- Largest epoch second `datetime.fromtimestamp` accepts
(9999-12-31T23:59:59 UTC). -/
def tsMax : Int := 253402300799

/-- Whether `datetime.fromtimestamp(n)` succeeds. -/
def fromtimestampOk (n : Int) : Bool := decide (tsMin ≤ n) && decide (n ≤ tsMax)

/-- A parsed sidecar record, collapsed to the two timestamp-bearing
fields `extract_datetime` reads. -/
structure MetadataRec : Type where
  photoTakenTime : Option TVal
  creationTime : Option TVal
deriving DecidableEq

/-- One `timestamp = metadata.get(...).get('timestamp'); if timestamp:
return datetime.fromtimestamp(int(timestamp))` step: `ok none` means
"fell through" (missing or falsy), `error` means an exception escaped
from `int` or `fromtimestamp`. -/
def tryTimestampField (t : Option TVal) : Except Unit (Option Int) :=
  match t with
  | none => .ok none
  | some v =>
    if truthy v then
      match pyIntOf v with
      | none => .error ()
      | some n => if fromtimestampOk n then .ok (some n) else .error ()
    else .ok none

/-- `lib/metadata.py` `extract_datetime`: primary `photoTakenTime`
first, then `creationTime`, both inside one `try` whose handler
returns `None` — so an exception while converting the primary field
skips the fallback entirely. -/
def extract_datetime (m : MetadataRec) : Option Int :=
  match tryTimestampField m.photoTakenTime with
  | .error _ => none
  | .ok (some v) => some v
  | .ok none =>
    match tryTimestampField m.creationTime with
    | .error _ => none
    | .ok r => r

/-- Modelled from the spec's words (claim C2), for comparison with
`extract_datetime`: "a non-numeric or out-of-range value is treated as
absent rather than aborting the record", i.e. each field independently
degrades to absent and the fallback is still consulted. -/
def validTimestampSpec (t : Option TVal) : Option Int :=
  match t with
  | none => none
  | some v =>
    if truthy v then
      match pyIntOf v with
      | none => none
      | some n => if fromtimestampOk n then some n else none
    else none

/-- Modelled from the spec's words (claim C2): primary if present and
valid, else fallback if present and valid, else absent. -/
def extract_datetime_spec (m : MetadataRec) : Option Int :=
  match validTimestampSpec m.photoTakenTime with
  | some v => some v
  | none => validTimestampSpec m.creationTime

/-! ## Datetimes (`datetime.datetime`)

CPython stores a datetime as calendar/clock components, compares
datetimes lexicographically on those components, and subtracts them by
converting to (proleptic-Gregorian ordinal day, second of day).
Microseconds are dropped: every datetime this program compares or
subtracts comes from integer epoch seconds or a parsed
`YYYY:MM:DD HH:MM:SS` string. -/

structure PyDateTime : Type where
  year : Int
  month : Int
  day : Int
  hour : Int
  minute : Int
  second : Int
deriving DecidableEq

/-- Lexicographic strict comparison of datetimes (CPython compares the
component tuples). -/
def dtLt (a b : PyDateTime) : Bool :=
  if a.year != b.year then decide (a.year < b.year)
  else if a.month != b.month then decide (a.month < b.month)
  else if a.day != b.day then decide (a.day < b.day)
  else if a.hour != b.hour then decide (a.hour < b.hour)
  else if a.minute != b.minute then decide (a.minute < b.minute)
  else decide (a.second < b.second)

/-- Lexicographic non-strict comparison of datetimes. -/
def dtLe (a b : PyDateTime) : Bool := dtLt a b || a == b

/-- Python leap-year rule. -/
def isLeap (y : Int) : Bool := y % 4 == 0 && (y % 100 != 0 || y % 400 == 0)

/-- `_DAYS_BEFORE_MONTH[m]` (non-leap cumulative days). -/
def daysBeforeMonthTable : Int → Int
  | 1 => 0 | 2 => 31 | 3 => 59 | 4 => 90 | 5 => 120 | 6 => 151
  | 7 => 181 | 8 => 212 | 9 => 243 | 10 => 273 | 11 => 304 | 12 => 334
  | _ => 0

/-- CPython `_days_before_month`. -/
def daysBeforeMonth (y m : Int) : Int :=
  daysBeforeMonthTable m + (if 2 < m && isLeap y then 1 else 0)

/-- CPython `_days_before_year`: days before January 1st of `y`. -/
def daysBeforeYear (y : Int) : Int :=
  365 * (y - 1) + (y - 1).fdiv 4 - (y - 1).fdiv 100 + (y - 1).fdiv 400

/-- `datetime.toordinal()`. -/
def toordinal (d : PyDateTime) : Int :=
  daysBeforeYear d.year + daysBeforeMonth d.year d.month + d.day

/-- Seconds since midnight of a datetime. -/
def secondOfDay (d : PyDateTime) : Int :=
  d.hour * 3600 + d.minute * 60 + d.second

/-- `(a - b).total_seconds()` for second-resolution datetimes. -/
def subSeconds (a b : PyDateTime) : Int :=
  (toordinal a - toordinal b) * 86400 + (secondOfDay a - secondOfDay b)

/-- `(a - b).days`: the `timedelta` day count, i.e. the floor of the
signed difference in days. -/
def subDays (a b : PyDateTime) : Int := (subSeconds a b).fdiv 86400

/-! ## Filesystem-mtime fallback (`lib/exif_reader.py`, `read_file_mtime_safe`)

`os.path.getmtime` and `datetime.now()` become the explicit arguments
`fileDate` and `now`. -/

/-- `lib/exif_reader.py` `read_file_mtime_safe`: accept the
modification time only if its year is ≥ 2000 and ≤ the current year,
it is not in the future, and it is at least `min_age_days` old. -/
def read_file_mtime_safe (fileDate now : PyDateTime) (min_age_days : Int) :
    Option PyDateTime :=
  if decide (fileDate.year < 2000) then none
  else if decide (now.year < fileDate.year) then none
  else if dtLt now fileDate then none
  else if decide (subDays now fileDate < min_age_days) then none
  else some fileDate

/-! ## Idempotency check (`lib/exif_reader.py`, `has_matching_metadata`)

`read_exif_date` is I/O (an exiftool subprocess); its result is the
explicit argument `exifDate`. -/

/-- `lib/exif_reader.py` `has_matching_metadata`: an embedded date
exists and is within 60 seconds of the record date. -/
def has_matching_metadata (exifDate : Option PyDateTime) (jsonDt : PyDateTime) : Bool :=
  match exifDate with
  | none => false
  | some e => decide ((subSeconds e jsonDt).natAbs ≤ 60)

/-! ## Placement planner (`lib/organizer.py`, `get_output_path`)

The filesystem is the list `fs` of currently existing paths;
`output_path.exists()` is membership.  The collision loop is unbounded
in Python but can only run as long as every probed candidate exists, so
`fs.length + 1` probes always suffice when they can succeed at all; the
model gives the loop exactly that much fuel. -/

/-- `str(dt.year)` as a component fragment. -/
def yearName (y : Int) : Name := (toString y).toList

/-- `MONTH_NAMES[m]` from `lib/organizer.py` (months are 1..12 on every
valid datetime; the dict lookup would raise otherwise). -/
def monthName (m : Int) : Name :=
  (match m with
   | 1 => "January" | 2 => "February" | 3 => "March" | 4 => "April"
   | 5 => "May" | 6 => "June" | 7 => "July" | 8 => "August"
   | 9 => "September" | 10 => "October" | 11 => "November" | 12 => "December"
   | _ => "").toList

/-- `f"{stem}_{counter}{suffix}"`. -/
def collisionName (stem sfx : Name) (k : Nat) : Name :=
  stem ++ '_' :: ((Nat.repr k).toList ++ sfx)

/-- The `while output_path.exists(): counter += 1` loop, with explicit
fuel. -/
def resolveCollision (folder : PyPath) (stem sfx : Name) (fs : List PyPath) :
    Nat → Nat → PyPath
  | 0, k => folder ++ [collisionName stem sfx k]
  | fuel + 1, k =>
    if folder ++ [collisionName stem sfx k] ∈ fs then
      resolveCollision folder stem sfx fs fuel (k + 1)
    else folder ++ [collisionName stem sfx k]

/-- The folder `get_output_path` places into:
`Output/Unknown` or `Output/<year>/<MonthName>`. -/
def outputFolder (input_root : PyPath) (dt : Option PyDateTime) : PyPath :=
  match dt with
  | none => input_root ++ ["Output".toList, "Unknown".toList]
  | some d => input_root ++ ["Output".toList, yearName d.year, monthName d.month]

/-- `lib/organizer.py` `get_output_path`: the original filename inside
the year/month (or Unknown) folder, with `_<counter>` appended to the
stem, counter starting at 1, while the candidate exists. -/
def get_output_path (input_root : PyPath) (media : Name) (dt : Option PyDateTime)
    (fs : List PyPath) : PyPath :=
  let folder := outputFolder input_root dt
  if folder ++ [media] ∈ fs then
    resolveCollision folder (pyStem media) (pySuffix media) fs (fs.length + 1) 1
  else folder ++ [media]

/-! ## Per-file processing decision (`main.py`, `process_file`)

`parse_json`, `read_exif_date` and the exiftool embed call are I/O;
their outcomes are the explicit arguments `parsedDt` (the record parse
collapsed to `extract_datetime`'s input), `exifDate` and `embedOk`.
Copy and directory-creation failures are not modelled (the plan records
the destination the copy targets). -/

/-- What `process_file` decides to do with a paired file. -/
structure ProcessPlan : Type where
  ok : Bool
  dest : Option PyPath
  embeds : Bool
deriving DecidableEq

/-- `main.py` `process_file`, reduced to its control flow on a parsed
record: when a record date exists and `has_matching_metadata` holds,
copy to the organized destination without re-embedding; otherwise copy
and run the embedding step. -/
def process_file_paired (rec : Option MetadataRec) (exifDate : Option PyDateTime)
    (recDt : MetadataRec → Option PyDateTime)
    (input_root : PyPath) (media : Name) (fs : List PyPath) (embedOk : Bool) :
    ProcessPlan :=
  match rec with
  | none => ⟨false, none, false⟩
  | some m =>
    match recDt m with
    | some d =>
      if has_matching_metadata exifDate d then
        ⟨true, some (get_output_path input_root media (some d) fs), false⟩
      else
        ⟨embedOk, some (get_output_path input_root media (some d) fs), true⟩
    | none => ⟨embedOk, some (get_output_path input_root media none fs), true⟩

/-! ## Processing ledger (`lib/state.py`, `ProcessingState`)

Paths have an opaque type `π` and hashes an opaque type `κ`;
`_compute_file_hash` (MD5 of the resolved absolute path) is the
explicit argument `h : π → κ`.  The backing file's possible states are
`StorageVal`: absent, present-but-undecodable, or a decoded JSON list
of hash strings (the only shape `save_state` ever writes).  The
in-memory `set` is a `List` with membership semantics: `set.add` is
`cons` (duplicate insertions change no membership), `list(set)` is the
list itself. -/

/-- The backing `.processing_state.json` contents, classified by how
`_load_state` treats them: the file may be absent; present but not
decodable as JSON (`json.JSONDecodeError`); decodable to a value that
`len(...)`/`set(...)` accept — an iterable of hashables, in particular
the list of hash strings `save_state` writes, collapsed here to its
element list; or decodable to a value on which `len(data)` or
`set(data)` raises `TypeError`: a non-iterable scalar such as `123`,
`true` or `null`, or a collection containing an unhashable element
such as `[[1]]`. -/
inductive StorageVal (κ : Type) : Type
  | absent : StorageVal κ
  | corrupt : StorageVal κ
  | decoded : List κ → StorageVal κ
  | nonLedger : StorageVal κ
deriving DecidableEq

/-- In-memory `ProcessingState`: the processed-hash set and the
session counter `newly_processed`. -/
structure Ledger (κ : Type) : Type where
  processed : List κ
  newly : Nat
deriving DecidableEq

/-- `ProcessingState._load_state` with Python exceptions explicit.  An
absent file returns `set()`; a `json.JSONDecodeError` (or `IOError`) is
caught and returns `set()`; a decoded iterable of hashables becomes the
set of its elements; but decoded non-ledger content raises `TypeError`
from `len(data)`/`set(data)`, which the
`except (json.JSONDecodeError, IOError)` clause does not catch — the
exception escapes the constructor (and, in `main.py`, aborts the run
via the top-level handler). -/
def load_state {κ : Type} : StorageVal κ → Except Unit (List κ)
  | .absent => .ok []
  | .corrupt => .ok []
  | .decoded l => .ok l
  | .nonLedger => .error ()

/-- The in-memory state `ProcessingState.__init__` ends up with, on
storage where `_load_state` returns; a fresh instance starts with
`newly_processed = 0`.  On `nonLedger` storage no `ProcessingState`
ever exists (the `TypeError` propagates out of `__init__`), so the
`.error` arm below is dead code that only keeps the function total;
every theorem about `ledgerLoad` is restricted to, or applied at,
storage on which `load_state` succeeds. -/
def ledgerLoad {κ : Type} (st : StorageVal κ) : Ledger κ :=
  match load_state st with
  | .ok l => ⟨l, 0⟩
  | .error _ => ⟨[], 0⟩

/-- `ProcessingState.is_processed`: `file_hash in self.processed_files`. -/
def is_processed {π κ : Type} [DecidableEq κ] (h : π → κ) (st : Ledger κ) (p : π) :
    Bool :=
  decide (h p ∈ st.processed)

/-- `ProcessingState.save_state`: serialize the full set. -/
def ledgerSave {κ : Type} (st : Ledger κ) : StorageVal κ := .decoded st.processed

/-- `ProcessingState.mark_processed` acting on the pair (in-memory
state, backing storage): add the hash, bump the counter, and flush
every 10th addition. -/
def mark_processed {π κ : Type} [DecidableEq κ] (h : π → κ)
    (s : Ledger κ × StorageVal κ) (p : π) : Ledger κ × StorageVal κ :=
  let l : Ledger κ := ⟨h p :: s.1.processed, s.1.newly + 1⟩
  if l.newly % 10 = 0 then (l, ledgerSave l) else (l, s.2)

/-! # Helper lemmas -/

/-- Both branches of `mark_processed` leave the same in-memory state. -/
theorem mark_processed_fst {π κ : Type} [DecidableEq κ] (h : π → κ)
    (s : Ledger κ × StorageVal κ) (p : π) :
    (mark_processed h s p).1 = ⟨h p :: s.1.processed, s.1.newly + 1⟩ := by
  simp only [mark_processed]
  split <;> rfl

/-- Marking a list of paths accumulates exactly their hashes (in
reverse) on top of the starting set. -/
theorem foldl_mark_processed {π κ : Type} [DecidableEq κ] (h : π → κ) (ps : List π)
    (l0 : Ledger κ) (st0 : StorageVal κ) :
    ((ps.foldl (mark_processed h) (l0, st0)).1).processed =
      (ps.map h).reverse ++ l0.processed := by
  induction ps generalizing l0 st0 with
  | nil => simp
  | cons p ps ih =>
    simp only [List.foldl_cons, List.map_cons, List.reverse_cons, List.append_assoc]
    rw [show mark_processed h (l0, st0) p =
        ((mark_processed h (l0, st0) p).1, (mark_processed h (l0, st0) p).2) from rfl,
      mark_processed_fst]
    rw [ih]
    simp

/-! # Claims -/

/-- C9, counterexample.  The claim quantifies over every backing store
content, but content that decodes as JSON to a non-ledger value — the
file containing `123`, `null` or `[[1]]` — makes `_load_state` raise:
`json.load` succeeds, then `len(data)`/`set(data)` raise `TypeError`,
which `except (json.JSONDecodeError, IOError)` does not catch; the
exception escapes `ProcessingState.__init__` and aborts the run.
Loading such storage has no non-raising result at all. -/
theorem ledger_load_nonledger_type_error :
    load_state (StorageVal.nonLedger : StorageVal Name) = Except.error () ∧
    ¬ ∃ l, load_state (StorageVal.nonLedger : StorageVal Name) = Except.ok l := by
  refine ⟨rfl, ?_⟩
  rintro ⟨l, hl⟩
  cases hl

/-- C9, amended: loading degrades gracefully on exactly the absent and
undecodable cases.  There `_load_state` returns normally with the empty
set — every membership check on the resulting ledger is false — while
decodable non-ledger content raises an uncaught `TypeError` instead
(see the counterexample). -/
theorem ledger_load_degrades_gracefully {π κ : Type} [DecidableEq κ] (h : π → κ)
    (st : StorageVal κ) (hst : st = StorageVal.absent ∨ st = StorageVal.corrupt)
    (p : π) :
    load_state st = Except.ok [] ∧ is_processed h (ledgerLoad st) p = false := by
  rcases hst with rfl | rfl <;>
    exact ⟨rfl, by simp [is_processed, ledgerLoad, load_state]⟩

/-- Witness for C9 at concrete inputs. -/
theorem ledger_load_degrades_gracefully_witness :
    (load_state (StorageVal.absent : StorageVal Nat) = Except.ok [] ∧
      is_processed (fun n : Nat => n) (ledgerLoad StorageVal.absent) 3 = false) ∧
    (load_state (StorageVal.corrupt : StorageVal Nat) = Except.ok [] ∧
      is_processed (fun n : Nat => n) (ledgerLoad StorageVal.corrupt) 7 = false) :=
  ⟨ledger_load_degrades_gracefully (fun n : Nat => n) _ (Or.inl rfl) 3,
   ledger_load_degrades_gracefully (fun n : Nat => n) _ (Or.inr rfl) 7⟩

/-- C8: ledger round-trip.  Marking the paths `ps` in a fresh ledger
(over any prior backing storage), saving, and loading into a fresh
instance gives a ledger on which `is_processed` is true exactly for the
members of `ps` — for every other path it is false.  The path-identity
function `h` (MD5 of the resolved absolute path) is assumed injective,
which is the code's working assumption in keying the set by hashes. -/
theorem ledger_roundtrip {π κ : Type} [DecidableEq π] [DecidableEq κ] (h : π → κ)
    (hinj : Function.Injective h) (ps : List π) (init : StorageVal κ) (q : π) :
    is_processed h
      (ledgerLoad (ledgerSave (ps.foldl (mark_processed h) (⟨[], 0⟩, init)).1)) q =
      decide (q ∈ ps) := by
  simp only [is_processed, ledgerSave, ledgerLoad, load_state, foldl_mark_processed]
  simp [hinj.eq_iff, eq_comm]

/-- Witness for C8: three marked paths are exactly the processed ones
after the round-trip. -/
theorem ledger_roundtrip_witness :
    is_processed (fun n : Nat => n)
      (ledgerLoad (ledgerSave
        (([2, 3, 5] : List Nat).foldl (mark_processed (fun n : Nat => n))
          (⟨[], 0⟩, StorageVal.absent)).1)) 3 = decide (3 ∈ ([2, 3, 5] : List Nat)) ∧
    is_processed (fun n : Nat => n)
      (ledgerLoad (ledgerSave
        (([2, 3, 5] : List Nat).foldl (mark_processed (fun n : Nat => n))
          (⟨[], 0⟩, StorageVal.absent)).1)) 4 = decide (4 ∈ ([2, 3, 5] : List Nat)) :=
  ⟨ledger_roundtrip (fun n : Nat => n) (fun _ _ hab => hab) [2, 3, 5] StorageVal.absent 3,
   ledger_roundtrip (fun n : Nat => n) (fun _ _ hab => hab) [2, 3, 5] StorageVal.absent 4⟩

/-- The input on which `extract_datetime` and the spec's field-level
degradation disagree: a present but non-numeric primary timestamp next
to a valid fallback timestamp. -/
def invalidPrimaryRec : MetadataRec :=
  ⟨some (TVal.vstr "abc".toList), some (TVal.vstr "100".toList)⟩

/-- C2, counterexample.  The claim makes a non-numeric primary value
"treated as absent", so the valid fallback `100` should be returned;
the code wraps both fields in one `try` whose handler returns `None`,
so the `ValueError` from `int("abc")` abandons the fallback.  The two
readings provably differ at `invalidPrimaryRec`. -/
theorem extract_datetime_invalid_primary_blocks_fallback :
    extract_datetime invalidPrimaryRec = none ∧
    extract_datetime_spec invalidPrimaryRec = some 100 := by decide

/-- C2, amended.  `extract_datetime` returns the primary timestamp when
it is present (truthy) and valid; falls back to a present and valid
creation timestamp only when the primary is missing or falsy; returns
absent when both are missing or falsy; and returns absent — without
consulting the fallback — when the primary is present but non-numeric
or out of range. -/
theorem extract_datetime_characterization (m : MetadataRec) :
    (∀ v n, m.photoTakenTime = some v → truthy v = true → pyIntOf v = some n →
      fromtimestampOk n = true → extract_datetime m = some n) ∧
    ((m.photoTakenTime = none ∨ ∃ v, m.photoTakenTime = some v ∧ truthy v = false) →
      ∀ v n, m.creationTime = some v → truthy v = true → pyIntOf v = some n →
        fromtimestampOk n = true → extract_datetime m = some n) ∧
    ((m.photoTakenTime = none ∨ ∃ v, m.photoTakenTime = some v ∧ truthy v = false) →
      (m.creationTime = none ∨ ∃ v, m.creationTime = some v ∧ truthy v = false) →
      extract_datetime m = none) ∧
    (∀ v, m.photoTakenTime = some v → truthy v = true →
      (pyIntOf v = none ∨ ∃ n, pyIntOf v = some n ∧ fromtimestampOk n = false) →
      extract_datetime m = none) := by
  refine ⟨?_, ?_, ?_, ?_⟩
  · intro v n hv htr hint hok
    simp [extract_datetime, tryTimestampField, hv, htr, hint, hok]
  · rintro (hnone | ⟨v0, hv0, hfalsy⟩) v n hv htr hint hok <;>
      simp_all [extract_datetime, tryTimestampField]
  · rintro (hnone | ⟨v0, hv0, hfalsy⟩) (hnone2 | ⟨v1, hv1, hfalsy2⟩) <;>
      simp_all [extract_datetime, tryTimestampField]
  · rintro v hv htr (hbad | ⟨n, hn, hbad⟩) <;>
      simp_all [extract_datetime, tryTimestampField]

/-- The strict datetime comparison, spelled out as a lexicographic
proposition over the six components. -/
theorem dtLt_iff (a b : PyDateTime) :
    dtLt a b = true ↔
      (a.year < b.year ∨ (a.year = b.year ∧
        (a.month < b.month ∨ (a.month = b.month ∧
          (a.day < b.day ∨ (a.day = b.day ∧
            (a.hour < b.hour ∨ (a.hour = b.hour ∧
              (a.minute < b.minute ∨ (a.minute = b.minute ∧
                a.second < b.second)))))))))) := by
  simp only [dtLt, bne_iff_ne, ne_eq]
  split_ifs <;> simp <;> omega

/-- Totality relating the two directions of the lexicographic order. -/
theorem dtLt_false_iff (a b : PyDateTime) : dtLt a b = false ↔ dtLe b a = true := by
  obtain ⟨y1, mo1, d1, h1, mi1, s1⟩ := a
  obtain ⟨y2, mo2, d2, h2, mi2, s2⟩ := b
  rw [← Bool.not_eq_true]
  simp only [dtLe, Bool.or_eq_true, beq_iff_eq, dtLt_iff, PyDateTime.mk.injEq]
  omega

/-- Earlier-or-equal datetimes have earlier-or-equal years. -/
theorem dtLe_year_le {a b : PyDateTime} (hab : dtLe a b = true) : a.year ≤ b.year := by
  rcases (Bool.or_eq_true _ _).mp hab with hlt | heq
  · rcases (dtLt_iff a b).mp hlt with hy | ⟨hy, _⟩ <;> omega
  · rw [beq_iff_eq] at heq
    rw [heq]

/-- The floor-of-days test against a whole-day threshold is the same as
the seconds test. -/
theorem subDays_lt_iff (a b : PyDateTime) (m : Int) :
    subDays a b < m ↔ subSeconds a b < m * 86400 := by
  unfold subDays
  rw [Int.fdiv_eq_ediv _ (by omega)]
  omega

/-- C5: the filesystem-mtime fallback accepts the modification time iff
its year is at least 2000, it is not later than the current time, and
it is at least `min_age_days` days in the past; in every other case it
returns absent.  (The code's extra `year > current_year` rejection is
subsumed: a modification time that is not in the future cannot have a
later year.) -/
theorem read_file_mtime_safe_iff (fileDate now : PyDateTime) (min_age_days : Int) :
    read_file_mtime_safe fileDate now min_age_days = some fileDate ↔
      (2000 ≤ fileDate.year ∧ dtLe fileDate now = true ∧
        min_age_days * 86400 ≤ subSeconds now fileDate) := by
  unfold read_file_mtime_safe
  split_ifs with h1 h2 h3 h4
  · simp only [decide_eq_true_eq] at h1
    simp only [false_iff, not_and]
    intro hy
    omega
  · simp only [decide_eq_true_eq] at h1 h2
    simp only [false_iff, not_and]
    intro _ hle
    exact absurd (dtLe_year_le hle) (by omega)
  · simp only [false_iff, not_and]
    intro _ hle
    rw [← dtLt_false_iff] at hle
    simp [h3] at hle
  · simp only [decide_eq_true_eq] at h4
    simp only [false_iff, not_and]
    intro _ _ hsec
    rw [subDays_lt_iff] at h4
    omega
  · simp only [decide_eq_true_eq] at h1 h2 h4
    simp only [Option.some.injEq, true_iff]
    rw [Bool.not_eq_true] at h3
    rw [subDays_lt_iff] at h4
    exact ⟨by omega, (dtLt_false_iff now fileDate).mp h3, by omega⟩

/-- Witness for C5, instantiating the claim's own examples: a 5-day-old
modification time is rejected under a 30-day minimum age; a 31-day-old
one with year ≥ 2000 and not in the future is accepted. -/
theorem read_file_mtime_safe_iff_witness :
    read_file_mtime_safe ⟨2024, 6, 25, 12, 0, 0⟩ ⟨2024, 6, 30, 12, 0, 0⟩ 30 = none ∧
    read_file_mtime_safe ⟨2024, 5, 30, 12, 0, 0⟩ ⟨2024, 6, 30, 12, 0, 0⟩ 30 =
      some ⟨2024, 5, 30, 12, 0, 0⟩ :=
  ⟨by decide,
   (read_file_mtime_safe_iff ⟨2024, 5, 30, 12, 0, 0⟩ ⟨2024, 6, 30, 12, 0, 0⟩ 30).mpr
     (by refine ⟨by decide, by decide, by decide⟩)⟩

/-- C7: for a paired file whose record resolves to date `d`, the
idempotency check succeeds iff an embedded date exists within 60
seconds of `d`; on success the processing step copies to the organized
destination without re-embedding; on failure (absent or mismatched
embedded date) it copies and runs the full embedding step. -/
theorem idempotent_reconciliation (rec : MetadataRec)
    (recDt : MetadataRec → Option PyDateTime) (d : PyDateTime)
    (exifDate : Option PyDateTime) (root : PyPath) (media : Name)
    (fs : List PyPath) (embedOk : Bool) (hd : recDt rec = some d) :
    (has_matching_metadata exifDate d = true ↔
      ∃ e, exifDate = some e ∧ (subSeconds e d).natAbs ≤ 60) ∧
    (has_matching_metadata exifDate d = true →
      process_file_paired (some rec) exifDate recDt root media fs embedOk =
        ⟨true, some (get_output_path root media (some d) fs), false⟩) ∧
    (has_matching_metadata exifDate d = false →
      process_file_paired (some rec) exifDate recDt root media fs embedOk =
        ⟨embedOk, some (get_output_path root media (some d) fs), true⟩) := by
  refine ⟨?_, ?_, ?_⟩
  · cases exifDate <;> simp [has_matching_metadata]
  · intro h
    simp [process_file_paired, hd, h]
  · intro h
    simp [process_file_paired, hd, h]

/-- Witness for C7: a record date with an embedded date 30 seconds away
is treated as already processed (copied, not re-embedded); with the
embedded date absent, the full embedding runs. -/
theorem idempotent_reconciliation_witness :
    (has_matching_metadata (some ⟨2021, 1, 1, 0, 0, 30⟩) ⟨2021, 1, 1, 0, 0, 0⟩ = true ↔
      ∃ e, (some ⟨2021, 1, 1, 0, 0, 30⟩ : Option PyDateTime) = some e ∧
        (subSeconds e ⟨2021, 1, 1, 0, 0, 0⟩).natAbs ≤ 60) ∧
    (has_matching_metadata (some ⟨2021, 1, 1, 0, 0, 30⟩) ⟨2021, 1, 1, 0, 0, 0⟩ = true →
      process_file_paired (some ⟨some (TVal.vint 1609459200), none⟩)
          (some ⟨2021, 1, 1, 0, 0, 30⟩) (fun _ => some ⟨2021, 1, 1, 0, 0, 0⟩)
          [] "a.jpg".toList [] true =
        ⟨true, some (get_output_path [] "a.jpg".toList (some ⟨2021, 1, 1, 0, 0, 0⟩) []),
          false⟩) ∧
    (has_matching_metadata (some ⟨2021, 1, 1, 0, 0, 30⟩) ⟨2021, 1, 1, 0, 0, 0⟩ = false →
      process_file_paired (some ⟨some (TVal.vint 1609459200), none⟩)
          (some ⟨2021, 1, 1, 0, 0, 30⟩) (fun _ => some ⟨2021, 1, 1, 0, 0, 0⟩)
          [] "a.jpg".toList [] true =
        ⟨true, some (get_output_path [] "a.jpg".toList (some ⟨2021, 1, 1, 0, 0, 0⟩) []),
          true⟩) :=
  idempotent_reconciliation ⟨some (TVal.vint 1609459200), none⟩
    (fun _ => some ⟨2021, 1, 1, 0, 0, 0⟩) ⟨2021, 1, 1, 0, 0, 0⟩
    (some ⟨2021, 1, 1, 0, 0, 30⟩) [] "a.jpg".toList [] true rfl

/-- Witness for the amended C2 characterization: a record whose primary
timestamp is the string "1609459200" extracts exactly that epoch
second. -/
theorem extract_datetime_characterization_witness :
    extract_datetime ⟨some (TVal.vstr "1609459200".toList), none⟩ = some 1609459200 :=
  (extract_datetime_characterization ⟨some (TVal.vstr "1609459200".toList), none⟩).1
    (TVal.vstr "1609459200".toList) 1609459200 rfl (by decide) (by decide) (by decide)

/-- The first-among-longest element of a list of runs. -/
def firstLongestRun : List (List Char) → Option (List Char)
  | [] => none
  | r :: rs =>
    match firstLongestRun rs with
    | none => some r
    | some s => if r.length < s.length then some s else some r

/-- Modelled from the spec's words (claim C3): the numeric value of the
longest run of at least 3 consecutive digits; if none, the value of the
last run of any length; if no digits, absent. -/
def extract_number_spec (filename : Name) : Option Nat :=
  match firstLongestRun
      ((digitRuns filename).filter (fun r => decide (3 ≤ r.length))) with
  | some r => some (digitsVal r)
  | none =>
    match (digitRuns filename).getLast? with
    | some r => some (digitsVal r)
    | none => none

/-- C3, counterexample.  The code returns the value of the *first* run
of ≥ 3 digits (`re.findall(r'\d{3,}', ...)[0]`), not the longest: on
`a123b45678.jpg` it returns 123 while the claim's longest-run reading
returns 45678. -/
theorem extract_number_first_run_not_longest :
    extract_number_from_filename "a123b45678.jpg".toList = some 123 ∧
    extract_number_spec "a123b45678.jpg".toList = some 45678 ∧
    extract_number_from_filename "a123b45678.jpg".toList ≠
      extract_number_spec "a123b45678.jpg".toList := by decide

/-- The run scanner yields nothing iff it was fed no digits at all. -/
theorem digitRunsAux_eq_nil_iff (xs : Name) (acc : List Char) :
    digitRunsAux xs acc = [] ↔ acc = [] ∧ ∀ c ∈ xs, c.isDigit = false := by
  induction xs generalizing acc with
  | nil => simp [digitRunsAux, List.isEmpty_iff]
  | cons c cs ih =>
    simp only [digitRunsAux]
    by_cases hc : c.isDigit
    · rw [if_pos hc, ih]
      simp [hc]
    · rw [if_neg hc]
      by_cases hacc : acc.isEmpty
      · rw [if_pos hacc, ih]
        rw [List.isEmpty_iff] at hacc
        simp [hacc, hc]
      · rw [if_neg hacc]
        rw [List.isEmpty_iff] at hacc
        simp [hacc, hc]

/-- A filename has no digit runs iff it has no digit. -/
theorem digitRuns_eq_nil_iff (n : Name) :
    digitRuns n = [] ↔ ∀ c ∈ n, c.isDigit = false := by
  rw [digitRuns, digitRunsAux_eq_nil_iff]
  simp

/-- `find?` is the head of `filter`. -/
theorem find?_eq_head?_filter {α : Type} (p : α → Bool) (l : List α) :
    l.find? p = (l.filter p).head? := by
  induction l with
  | nil => rfl
  | cons a as ih =>
    by_cases h : p a = true
    · rw [List.find?_cons_of_pos _ h, List.filter_cons_of_pos h, List.head?_cons]
    · rw [List.find?_cons_of_neg _ h, List.filter_cons_of_neg h, ih]

/-- Number extraction fails exactly on digit-free filenames. -/
theorem extract_number_none_iff (n : Name) :
    extract_number_from_filename n = none ↔ ∀ c ∈ n, c.isDigit = false := by
  rw [← digitRuns_eq_nil_iff]
  unfold extract_number_from_filename
  cases hr : digitRuns n with
  | nil => simp
  | cons r rs =>
    simp only [List.cons_ne_nil, iff_false]
    rcases hf : (r :: rs).filter (fun t => decide (3 ≤ t.length)) with _ | ⟨s, ss⟩
    · rw [hf]
      rcases hl : (r :: rs).getLast? with _ | t
      · simp [List.getLast?_eq_none_iff] at hl
      · simp
    · rw [hf]
      simp

/-- C3, amended.  Number extraction returns the value of the *first*
maximal run of at least 3 consecutive digits; if no run reaches length
3, the value of the last maximal digit run; and it returns absent
exactly when the filename contains no digit at all. -/
theorem extract_number_characterization (filename : Name) :
    (∀ r, (digitRuns filename).find? (fun t => decide (3 ≤ t.length)) = some r →
      extract_number_from_filename filename = some (digitsVal r)) ∧
    ((∀ r ∈ digitRuns filename, r.length < 3) →
      ∀ r, (digitRuns filename).getLast? = some r →
        extract_number_from_filename filename = some (digitsVal r)) ∧
    (extract_number_from_filename filename = none ↔
      ∀ c ∈ filename, c.isDigit = false) := by
  refine ⟨?_, ?_, extract_number_none_iff filename⟩
  · intro r hr
    rw [find?_eq_head?_filter] at hr
    unfold extract_number_from_filename
    rcases hf : (digitRuns filename).filter (fun t => decide (3 ≤ t.length)) with
      _ | ⟨s, ss⟩
    · rw [hf] at hr
      simp at hr
    · rw [hf] at hr
      simp only [List.head?_cons, Option.some.injEq] at hr
      rw [hf, hr]
  · intro hshort r hr
    have hf : (digitRuns filename).filter (fun t => decide (3 ≤ t.length)) = [] := by
      rw [List.filter_eq_nil_iff]
      intro a ha
      simpa using Nat.not_le.mpr (hshort a ha)
    unfold extract_number_from_filename
    rw [hf, hr]

/-- Witness for the amended C3 at the docstring's own example
`IMG_3689.JPG`, whose first (and only) long digit run is `3689`. -/
theorem extract_number_characterization_witness :
    extract_number_from_filename "IMG_3689.JPG".toList =
      some (digitsVal ['3', '6', '8', '9']) :=
  (extract_number_characterization "IMG_3689.JPG".toList).1 ['3', '6', '8', '9']
    (by decide)

/-- `find?` returns the first hit on an integer interval. -/
theorem find?_range'_eq_some (p : Nat → Bool) :
    ∀ (count s N : Nat), s ≤ N → N < s + count → p N = true →
      (∀ m, s ≤ m → m < N → p m = false) →
      (List.range' s count).find? p = some N := by
  intro count
  induction count with
  | zero =>
    intro s N h1 h2 _ _
    omega
  | succ c ih =>
    intro s N h1 h2 hp hmin
    rw [List.range'_succ]
    by_cases hsN : s = N
    · subst hsN
      rw [List.find?_cons_of_pos _ hp]
    · rw [List.find?_cons_of_neg _ (by simp [hmin s (le_refl s) (by omega)])]
      exact ih (s + 1) N (by omega) (by omega) hp (fun m hm hm2 => hmin m (by omega) hm2)

/-- `find?` returns the head of the first satisfying split. -/
theorem find?_first_of_split {α : Type} (p : α → Bool) (pre post : List α) (e : α)
    (hpre : ∀ x ∈ pre, p x = false) (he : p e = true) :
    (pre ++ e :: post).find? p = some e := by
  induction pre with
  | nil => simpa using List.find?_cons_of_pos post he
  | cons a as ih =>
    rw [List.cons_append,
      List.find?_cons_of_neg _ (by simp [hpre a (List.mem_cons_self a as)])]
    exact ih (fun x hx => hpre x (List.mem_cons_of_mem a hx))

/-- Decimal digits of a natural number, most significant first
(structural counterpart of `Nat.toDigits 10`). -/
def digitsOfNat (n : Nat) : List Char :=
  if _hten : n < 10 then [Nat.digitChar n]
  else digitsOfNat (n / 10) ++ [Nat.digitChar (n % 10)]
termination_by n
decreasing_by exact Nat.div_lt_self (by omega) (by omega)

/-- Core's fueled digit printer agrees with `digitsOfNat` whenever the
fuel covers the input. -/
theorem toDigitsCore_eq_digitsOfNat :
    ∀ (fuel n : Nat) (acc : List Char), n < fuel →
      Nat.toDigitsCore 10 fuel n acc = digitsOfNat n ++ acc := by
  intro fuel
  induction fuel with
  | zero => omega
  | succ f ih =>
    intro n acc hn
    show (if n / 10 = 0 then Nat.digitChar (n % 10) :: acc
      else Nat.toDigitsCore 10 f (n / 10) (Nat.digitChar (n % 10) :: acc)) =
      digitsOfNat n ++ acc
    by_cases h0 : n / 10 = 0
    · rw [if_pos h0]
      have hlt : n < 10 := by omega
      rw [digitsOfNat, dif_pos hlt, Nat.mod_eq_of_lt hlt]
      rfl
    · rw [if_neg h0]
      have h10 : 10 ≤ n := by omega
      have hlt : n / 10 < n := Nat.div_lt_self (by omega) (by omega)
      have hdiv : n / 10 < f := by omega
      have hexp : digitsOfNat n = digitsOfNat (n / 10) ++ [Nat.digitChar (n % 10)] := by
        rw [digitsOfNat]
        exact dif_neg (by omega)
      rw [ih (n / 10) (Nat.digitChar (n % 10) :: acc) hdiv, hexp, List.append_assoc]
      rfl

/-- A digit character below ten decodes back to its value. -/
theorem digitChar_val (m : Nat) (hm : m < 10) : (Nat.digitChar m).toNat - 48 = m := by
  interval_cases m <;> decide

/-- `digitsVal` inverts `digitsOfNat`. -/
theorem digitsVal_digitsOfNat (n : Nat) : digitsVal (digitsOfNat n) = n := by
  induction n using Nat.strong_induction_on with
  | _ n ih =>
    by_cases h : n < 10
    · rw [digitsOfNat, dif_pos h]
      simp [digitsVal, digitChar_val n h]
    · rw [digitsOfNat, dif_neg h]
      have hdiv : n / 10 < n := Nat.div_lt_self (by omega) (by omega)
      have hiv := ih (n / 10) hdiv
      unfold digitsVal at hiv ⊢
      rw [List.foldl_append, hiv]
      simp only [List.foldl_cons, List.foldl_nil]
      rw [digitChar_val (n % 10) (Nat.mod_lt _ (by omega))]
      omega

/-- Decimal printing of naturals is injective. -/
theorem natRepr_toList_injective :
    Function.Injective (fun n : Nat => (Nat.repr n).toList) := by
  intro a b hab
  have ha : (Nat.repr a).toList = digitsOfNat a := by
    show (Nat.toDigits 10 a).asString.toList = _
    rw [Nat.toDigits, toDigitsCore_eq_digitsOfNat (a + 1) a [] (Nat.lt_succ_self a)]
    simp [List.asString, String.toList]
  have hb : (Nat.repr b).toList = digitsOfNat b := by
    show (Nat.toDigits 10 b).asString.toList = _
    rw [Nat.toDigits, toDigitsCore_eq_digitsOfNat (b + 1) b [] (Nat.lt_succ_self b)]
    simp [List.asString, String.toList]
  have : digitsOfNat a = digitsOfNat b := by
    rw [← ha, ← hb]
    exact hab
  calc a = digitsVal (digitsOfNat a) := (digitsVal_digitsOfNat a).symm
    _ = digitsVal (digitsOfNat b) := by rw [this]
    _ = b := digitsVal_digitsOfNat b

/-- Distinct collision counters give distinct candidate names. -/
theorem collisionName_injective (stem sfx : Name) :
    Function.Injective (collisionName stem sfx) := by
  intro i j hij
  unfold collisionName at hij
  have h1 := List.append_cancel_left hij
  have h2 : ((Nat.repr i).toList : List Char) ++ sfx = (Nat.repr j).toList ++ sfx := by
    injection h1
  exact natRepr_toList_injective (List.append_cancel_right h2)

/-- The collision loop lands on the first free counter, provided the
fuel reaches it. -/
theorem resolveCollision_eq (folder : PyPath) (stem sfx : Name) (fs : List PyPath) :
    ∀ (fuel k K : Nat), k ≤ K → K ≤ k + fuel →
      folder ++ [collisionName stem sfx K] ∉ fs →
      (∀ j, k ≤ j → j < K → folder ++ [collisionName stem sfx j] ∈ fs) →
      resolveCollision folder stem sfx fs fuel k =
        folder ++ [collisionName stem sfx K] := by
  intro fuel
  induction fuel with
  | zero =>
    intro k K h1 h2 hfree hbusy
    have hk : k = K := by omega
    rw [hk]
    rfl
  | succ f ih =>
    intro k K h1 h2 hfree hbusy
    show (if folder ++ [collisionName stem sfx k] ∈ fs then
        resolveCollision folder stem sfx fs f (k + 1)
      else folder ++ [collisionName stem sfx k]) = _
    by_cases hk : folder ++ [collisionName stem sfx k] ∈ fs
    · rw [if_pos hk]
      have hne : k ≠ K := fun he => hfree (he ▸ hk)
      exact ih (k + 1) K (by omega) (by omega) hfree
        (fun j hj hj2 => hbusy j (by omega) hj2)
    · rw [if_neg hk]
      have hKk : K ≤ k := by
        by_contra hlt
        exact hk (hbusy k (le_refl k) (by omega))
      have : k = K := by omega
      rw [this]

/-- If every counter in `[1, K)` is taken, the filesystem pins `K`
under `fs.length + 1` (the candidates are pairwise distinct paths). -/
theorem collision_counter_bound (folder : PyPath) (stem sfx : Name) (fs : List PyPath)
    (K : Nat)
    (hbusy : ∀ j, 1 ≤ j → j < K → folder ++ [collisionName stem sfx j] ∈ fs) :
    K ≤ fs.length + 1 := by
  by_contra hgt
  set cand : Nat → PyPath := fun j => folder ++ [collisionName stem sfx j] with hcand
  have hinj : Function.Injective cand := by
    intro i j hij
    apply collisionName_injective stem sfx
    have := List.append_cancel_left hij
    injection this with h1 _
  have hnd : ((List.range' 1 (K - 1)).map cand).Nodup :=
    (List.nodup_range' 1 (K - 1)).map hinj
  have hsub : ((List.range' 1 (K - 1)).map cand).toFinset ⊆ fs.toFinset := by
    intro x hx
    rw [List.mem_toFinset] at hx
    rw [List.mem_toFinset]
    obtain ⟨j, hj, rfl⟩ := List.mem_map.mp hx
    rw [List.mem_range'] at hj
    obtain ⟨i, hi, rfl⟩ := hj
    exact hbusy (1 + 1 * i) (by omega) (by omega)
  have hcardle : ((List.range' 1 (K - 1)).map cand).toFinset.card ≤ fs.toFinset.card :=
    Finset.card_le_card hsub
  rw [List.toFinset_card_of_nodup hnd] at hcardle
  have := List.toFinset_card_le (l := fs)
  simp only [List.length_map, List.length_range'] at hcardle
  omega

/-- C6: placement uses the original filename in the computed folder; on
collision it appends `_<counter>` to the stem, counter from 1 upward,
re-checking existence, and returns the first free candidate.  The last
two conjuncts run the claim's example: placing `a.jpg` twice into the
same May 2021 destination yields `a.jpg` then `a_1.jpg`. -/
theorem get_output_path_collision (root : PyPath) (media : Name) (dt : Option PyDateTime)
    (fs : List PyPath) :
    (outputFolder root dt ++ [media] ∉ fs →
      get_output_path root media dt fs = outputFolder root dt ++ [media]) ∧
    (outputFolder root dt ++ [media] ∈ fs →
      ∀ K, 1 ≤ K →
        outputFolder root dt ++ [collisionName (pyStem media) (pySuffix media) K] ∉ fs →
        (∀ j, 1 ≤ j → j < K →
          outputFolder root dt ++ [collisionName (pyStem media) (pySuffix media) j] ∈ fs) →
        get_output_path root media dt fs =
          outputFolder root dt ++ [collisionName (pyStem media) (pySuffix media) K]) ∧
    (get_output_path ["r".toList] "a.jpg".toList (some ⟨2021, 5, 1, 0, 0, 0⟩) [] =
      ["r".toList, "Output".toList, "2021".toList, "May".toList, "a.jpg".toList] ∧
    get_output_path ["r".toList] "a.jpg".toList (some ⟨2021, 5, 1, 0, 0, 0⟩)
        [["r".toList, "Output".toList, "2021".toList, "May".toList, "a.jpg".toList]] =
      ["r".toList, "Output".toList, "2021".toList, "May".toList, "a_1.jpg".toList]) := by
  refine ⟨?_, ?_, by decide, by decide⟩
  · intro hfree
    unfold get_output_path
    rw [if_neg hfree]
  · intro hmem K hK hfree hbusy
    unfold get_output_path
    rw [if_pos hmem]
    exact resolveCollision_eq _ _ _ fs (fs.length + 1) 1 K hK
      (by have := collision_counter_bound (outputFolder root dt) (pyStem media)
            (pySuffix media) fs K hbusy
          omega)
      hfree hbusy

/-- Witness for C6: with `a.jpg` taken, counter 1 is free and is chosen. -/
theorem get_output_path_collision_witness :
    get_output_path ["r".toList] "a.jpg".toList (some ⟨2021, 5, 1, 0, 0, 0⟩)
        [["r".toList, "Output".toList, "2021".toList, "May".toList, "a.jpg".toList]] =
      outputFolder ["r".toList] (some ⟨2021, 5, 1, 0, 0, 0⟩) ++
        [collisionName (pyStem "a.jpg".toList) (pySuffix "a.jpg".toList) 1] :=
  (get_output_path_collision ["r".toList] "a.jpg".toList (some ⟨2021, 5, 1, 0, 0, 0⟩)
      [["r".toList, "Output".toList, "2021".toList, "May".toList, "a.jpg".toList]]).2.1
    (by decide) 1 (le_refl 1) (by decide) (fun j hj1 hj2 => absurd (by omega : (1 : Nat) ≤ 0) (by decide))

/-- A dot-free name has no last dot. -/
theorem rfindDot_eq_none_iff (n : Name) : rfindDot n = none ↔ '.' ∉ n := by
  induction n with
  | nil => simp [rfindDot]
  | cons c cs ih =>
    rw [rfindDot]
    rcases h : rfindDot cs with _ | i
    · have hcs : '.' ∉ cs := ih.mp h
      by_cases hc : c = '.'
      · subst hc
        simp [hcs]
      · simp [beq_iff_eq, hc, hcs]
        exact fun he => hc he.symm
    · have hdot : '.' ∈ cs := by
        by_contra hnot
        exact absurd (ih.mpr hnot) (by simp [h])
      simp [hdot]

/-- The last dot of `a ++ "." ++ e` with dot-free `e` sits at `|a|`. -/
theorem rfindDot_append_dot (a e : Name) (he : '.' ∉ e) :
    rfindDot (a ++ '.' :: e) = some a.length := by
  induction a with
  | nil =>
    rw [List.nil_append, rfindDot, (rfindDot_eq_none_iff e).mpr he]
    simp
  | cons c a2 ih =>
    rw [List.cons_append, rfindDot, ih]
    simp

/-- Splitting a name at its last dot: the tail after the dot is
dot-free and the lengths add up. -/
theorem rfindDot_some_shape (n : Name) :
    ∀ i, rfindDot n = some i →
      ∃ ext, n.drop i = '.' :: ext ∧ '.' ∉ ext ∧ i + 1 + ext.length = n.length := by
  induction n with
  | nil =>
    intro i hi
    simp [rfindDot] at hi
  | cons c cs ih =>
    intro i hi
    rw [rfindDot] at hi
    rcases h : rfindDot cs with _ | j
    · rw [h] at hi
      by_cases hc : c = '.'
      · subst hc
        rw [if_pos (by simp)] at hi
        obtain rfl : (0 : Nat) = i := by injection hi
        refine ⟨cs, by simp, (rfindDot_eq_none_iff cs).mp h, by simp; omega⟩
      · rw [if_neg (by simp [hc])] at hi
        cases hi
    · rw [h] at hi
      obtain rfl : j + 1 = i := by injection hi
      obtain ⟨ext, hd, hnd, hlen⟩ := ih j h
      exact ⟨ext, by simpa [List.drop_succ_cons] using hd, hnd, by simp [← hlen]; omega⟩

/-- Unpacking a successful stem/suffix split. -/
theorem pySplitIdx_some (n : Name) (i : Nat) (h : pySplitIdx n = some i) :
    rfindDot n = some i ∧ 0 < i ∧ i < n.length - 1 := by
  unfold pySplitIdx at h
  rcases hr : rfindDot n with _ | j
  · rw [hr] at h
    cases h
  · rw [hr] at h
    have h2 : (if 0 < j ∧ j < n.length - 1 then some j else none) = some i := h
    by_cases hc : 0 < j ∧ j < n.length - 1
    · rw [if_pos hc] at h2
      obtain rfl : j = i := by injection h2
      exact ⟨rfl, hc⟩
    · rw [if_neg hc] at h2
      cases h2

/-- The split of `a ++ "." ++ e` for nonempty `a` and nonempty
dot-free `e` happens exactly at `|a|`. -/
theorem pySplitIdx_append_dot (a e : Name) (ha : a ≠ []) (he : e ≠ [])
    (hnd : '.' ∉ e) : pySplitIdx (a ++ '.' :: e) = some a.length := by
  unfold pySplitIdx
  rw [rfindDot_append_dot a e hnd]
  have h1 : 0 < a.length := List.length_pos.mpr ha
  have h2 : a.length < (a ++ '.' :: e).length - 1 := by
    have := List.length_pos.mpr he
    simp only [List.length_append, List.length_cons]
    omega
  show (if 0 < a.length ∧ a.length < (a ++ '.' :: e).length - 1 then some a.length
    else none) = some a.length
  rw [if_pos ⟨h1, h2⟩]

/-- Stem of `a ++ "." ++ e`. -/
theorem pyStem_append_dot (a e : Name) (ha : a ≠ []) (he : e ≠ [])
    (hnd : '.' ∉ e) : pyStem (a ++ '.' :: e) = a := by
  unfold pyStem
  rw [pySplitIdx_append_dot a e ha he hnd]
  exact List.take_left a ('.' :: e)

/-- Suffix of `a ++ "." ++ e`. -/
theorem pySuffix_append_dot (a e : Name) (ha : a ≠ []) (he : e ≠ [])
    (hnd : '.' ∉ e) : pySuffix (a ++ '.' :: e) = '.' :: e := by
  unfold pySuffix
  rw [pySplitIdx_append_dot a e ha he hnd]
  exact List.drop_left a ('.' :: e)

/-- A name with a nonempty suffix splits as a nonempty stem followed by
a dot and a nonempty dot-free extension. -/
theorem pySuffix_shape (n : Name) (hs : pySuffix n ≠ []) :
    pyStem n ≠ [] ∧ (∃ ext, pySuffix n = '.' :: ext ∧ '.' ∉ ext ∧ ext ≠ []) ∧
      pyStem n ++ pySuffix n = n := by
  rcases hsp : pySplitIdx n with _ | i
  · exact absurd (by unfold pySuffix; rw [hsp]) hs
  · obtain ⟨hr, h0, hlt⟩ := pySplitIdx_some n i hsp
    obtain ⟨ext, hd, hnd, hlen⟩ := rfindDot_some_shape n i hr
    have hstem : pyStem n = n.take i := by unfold pyStem; rw [hsp]
    have hsufx : pySuffix n = n.drop i := by unfold pySuffix; rw [hsp]
    refine ⟨?_, ⟨ext, by rw [hsufx, hd], hnd, ?_⟩, ?_⟩
    · rw [hstem]
      have : (n.take i).length = i := by
        rw [List.length_take]
        omega
      intro hcon
      rw [hcon] at this
      simp at this
      omega
    · intro hcon
      rw [hcon] at hlen
      simp at hlen
      omega
    · rw [hstem, hsufx]
      exact List.take_append_drop i n

/-- `Nat.repr` in `List Char` form is `digitsOfNat`. -/
theorem natRepr_toList_eq (n : Nat) : (Nat.repr n).toList = digitsOfNat n := by
  show (Nat.toDigits 10 n).asString.toList = _
  rw [Nat.toDigits, toDigitsCore_eq_digitsOfNat (n + 1) n [] (Nat.lt_succ_self n)]
  simp [List.asString, String.toList]

/-- No digit character is a dot. -/
theorem digitChar_ne_dot (m : Nat) : Nat.digitChar m ≠ '.' := by
  by_cases h : m < 16
  · interval_cases m <;> decide
  · have hstar : Nat.digitChar m = '*' := by
      unfold Nat.digitChar
      iterate 16 rw [if_neg (by omega)]
    rw [hstar]
    decide

/-- Decimal digit strings contain no dot. -/
theorem digitsOfNat_no_dot (n : Nat) : '.' ∉ digitsOfNat n := by
  induction n using Nat.strong_induction_on with
  | _ n ih =>
    by_cases h : n < 10
    · rw [digitsOfNat, dif_pos h]
      simp only [List.mem_singleton]
      exact fun hc => digitChar_ne_dot n hc.symm
    · rw [digitsOfNat, dif_neg h]
      have hdiv : n / 10 < n := Nat.div_lt_self (by omega) (by omega)
      simp only [List.mem_append, List.mem_singleton, not_or]
      exact ⟨ih (n / 10) hdiv, fun hc => digitChar_ne_dot (n % 10) hc.symm⟩

/-- The collision loop always returns some candidate in the target
folder, with a counter at least its starting value. -/
theorem resolveCollision_shape (folder : PyPath) (stem sfx : Name) (fs : List PyPath) :
    ∀ (fuel k0 : Nat), ∃ k, k0 ≤ k ∧
      resolveCollision folder stem sfx fs fuel k0 =
        folder ++ [collisionName stem sfx k] := by
  intro fuel
  induction fuel with
  | zero => exact fun k0 => ⟨k0, le_refl _, rfl⟩
  | succ f ih =>
    intro k0
    by_cases hm : folder ++ [collisionName stem sfx k0] ∈ fs
    · obtain ⟨k, hk, he⟩ := ih (k0 + 1)
      refine ⟨k, by omega, ?_⟩
      show (if folder ++ [collisionName stem sfx k0] ∈ fs then
          resolveCollision folder stem sfx fs f (k0 + 1)
        else folder ++ [collisionName stem sfx k0]) = _
      rw [if_pos hm]
      exact he
    · refine ⟨k0, le_refl _, ?_⟩
      show (if folder ++ [collisionName stem sfx k0] ∈ fs then
          resolveCollision folder stem sfx fs f (k0 + 1)
        else folder ++ [collisionName stem sfx k0]) = _
      rw [if_neg hm]

/-- C10: placement invariants.  For a media file with a nonempty
extension (each of the scanner's media extensions is nonempty), the
planned destination always sits strictly under `<root>/Output`; its
last component keeps the file's extension; its stem extends the file's
stem; the containing folder is `Output/Unknown` exactly when no date
was resolved; and without a collision the filename is kept verbatim. -/
theorem get_output_path_invariants (root : PyPath) (media : Name) (dt : Option PyDateTime)
    (fs : List PyPath) (hsuf : pySuffix media ≠ []) :
    ∃ nm tail,
      get_output_path root media dt fs = root ++ ["Output".toList] ++ tail ++ [nm] ∧
      pySuffix nm = pySuffix media ∧
      pyStem media <+: pyStem nm ∧
      (tail = ["Unknown".toList] ↔ dt = none) ∧
      (outputFolder root dt ++ [media] ∉ fs → nm = media) := by
  obtain ⟨hstemne, ⟨ext, hsfx, hnd, hextne⟩, hsplit⟩ := pySuffix_shape media hsuf
  obtain ⟨tl, hout, htail⟩ : ∃ tl, outputFolder root dt = root ++ ["Output".toList] ++ tl ∧
      (tl = ["Unknown".toList] ↔ dt = none) := by
    cases dt with
    | none => exact ⟨["Unknown".toList], by simp [outputFolder], by simp⟩
    | some d =>
      exact ⟨[yearName d.year, monthName d.month], by simp [outputFolder], by simp⟩
  by_cases hm : outputFolder root dt ++ [media] ∈ fs
  · obtain ⟨k, hk, he⟩ :=
      resolveCollision_shape (outputFolder root dt) (pyStem media) (pySuffix media) fs
        (fs.length + 1) 1
    have hcand : collisionName (pyStem media) (pySuffix media) k =
        (pyStem media ++ '_' :: (Nat.repr k).toList) ++ '.' :: ext := by
      rw [collisionName, hsfx]
      simp [List.append_assoc]
    have hane : pyStem media ++ '_' :: (Nat.repr k).toList ≠ [] := by
      simp [hstemne]
    refine ⟨collisionName (pyStem media) (pySuffix media) k, tl, ?_, ?_, ?_, htail, ?_⟩
    · unfold get_output_path
      rw [if_pos hm, ← hout]
      exact he
    · rw [hcand, pySuffix_append_dot _ ext hane hextne hnd, hsfx]
    · rw [hcand, pyStem_append_dot _ ext hane hextne hnd]
      exact List.prefix_append (pyStem media) ('_' :: (Nat.repr k).toList)
    · intro hcon
      exact absurd hm hcon
  · refine ⟨media, tl, ?_, rfl, List.prefix_refl _, htail, fun _ => rfl⟩
    unfold get_output_path
    rw [if_neg hm, ← hout]

/-- Witness for C10 at a concrete undated placement. -/
theorem get_output_path_invariants_witness :
    ∃ nm tail,
      get_output_path ["r".toList] "a.jpg".toList none [] =
        ["r".toList] ++ ["Output".toList] ++ tail ++ [nm] ∧
      pySuffix nm = pySuffix "a.jpg".toList ∧
      pyStem "a.jpg".toList <+: pyStem nm ∧
      (tail = ["Unknown".toList] ↔ (none : Option PyDateTime) = none) ∧
      (outputFolder ["r".toList] none ++ ["a.jpg".toList] ∉ ([] : List PyPath) →
        nm = "a.jpg".toList) :=
  get_output_path_invariants ["r".toList] "a.jpg".toList none [] (by decide)

/-- The stem is a prefix of the name. -/
theorem pyStem_prefix_self (n : Name) : pyStem n <+: n := by
  unfold pyStem
  rcases h : pySplitIdx n with _ | i
  · exact List.prefix_refl n
  · exact List.take_prefix i n

/-- Stem and suffix reassemble the name. -/
theorem pyStem_append_pySuffix (n : Name) : pyStem n ++ pySuffix n = n := by
  unfold pyStem pySuffix
  rcases h : pySplitIdx n with _ | i
  · simp
  · exact List.take_append_drop i n

/-- For an index entry with a digit-free suffix and an extractable
number, testing the non-digit prefix against the entry's stem (as the
code does) and against its full filename (as the spec says) agree: a
filename that extends the all-non-digit prefix past its stem has all
its digits nowhere, contradicting extractability. -/
theorem pre_isPrefixOf_stem_iff_name (media nm : Name)
    (hsufnd : ∀ c ∈ pySuffix nm, c.isDigit = false)
    (hnum : extract_number_from_filename nm ≠ none) :
    (nonDigitPre (pyStem media)).isPrefixOf (pyStem nm) =
      (nonDigitPre (pyStem media)).isPrefixOf nm := by
  have hpnd : ∀ c ∈ nonDigitPre (pyStem media), c.isDigit = false := by
    intro c hc
    have := List.mem_takeWhile_imp hc
    simpa using this
  rw [Bool.eq_iff_iff]
  simp only [List.isPrefixOf_iff_prefix]
  constructor
  · intro h
    exact h.trans (pyStem_prefix_self nm)
  · intro h
    by_contra hns
    rcases List.prefix_or_prefix_of_prefix (pyStem_prefix_self nm) h with hsp | hps
    · apply hnum
      rw [extract_number_none_iff]
      intro c hc
      rw [← pyStem_append_pySuffix nm, List.mem_append] at hc
      rcases hc with hcs | hcsfx
      · exact hpnd c (hsp.subset hcs)
      · exact hsufnd c hcsfx
    · exact hns hps
  
/-- The guesser's distance of an entry to the target number. -/
def distOf (t : Nat) (nm : Name) : Nat :=
  (((extract_number_from_filename nm).getD 0 : Int) - (t : Int)).natAbs

/-- The spec-worded candidate set of the similarity guesser: index
entries whose filename starts with the target's non-digit prefix and
which have an extractable number. -/
def prefixNumberMatches {α : Type} (media : Name) (idx : List (Name × α)) :
    List (Name × α) :=
  idx.filter (fun e => (nonDigitPre (pyStem media)).isPrefixOf e.1 &&
    (extract_number_from_filename e.1).isSome)

/-- Under digit-free suffixes, the code's accumulated
(distance, date) list is exactly the claim's candidate set tagged with
distances. -/
theorem similarCandidates_eq {α : Type} (media : Name) (t : Nat) (idx : List (Name × α))
    (hsuf : ∀ e ∈ idx, ∀ c ∈ pySuffix e.1, c.isDigit = false) :
    similarCandidates (nonDigitPre (pyStem media)) t idx =
      (prefixNumberMatches media idx).map (fun e => (distOf t e.1, e.2)) := by
  induction idx with
  | nil => rfl
  | cons e es ih =>
    have hsufe := hsuf e (List.mem_cons_self e es)
    have ihs := ih (fun x hx => hsuf x (List.mem_cons_of_mem e hx))
    simp only [similarCandidates, prefixNumberMatches, List.filterMap_cons,
      List.filter_cons] at ihs ⊢
    rcases hn : extract_number_from_filename e.1 with _ | fn
    · simp only [Option.isSome_none, Bool.and_false, Bool.false_eq_true, if_false]
      split_ifs with hps
      · exact ihs
      · exact ihs
    · have hnn : extract_number_from_filename e.1 ≠ none := by
        rw [hn]
        simp
      have hiff := pre_isPrefixOf_stem_iff_name media e.1 hsufe hnn
      simp only [Option.isSome_some, Bool.and_true]
      by_cases hp : (nonDigitPre (pyStem media)).isPrefixOf e.1 = true
      · rw [if_pos (by rw [hiff]; exact hp), hp]
        simp only [if_true, List.map_cons]
        rw [ihs]
        have hd : distOf t e.1 = (((fn : Int) - (t : Int)).natAbs) := by
          rw [distOf, hn]
          rfl
        rw [hd]
      · rw [Bool.not_eq_true] at hp
        rw [if_neg (by rw [hiff, hp]; simp), hp]
        simp only [Bool.false_eq_true, if_false]
        exact ihs

/-- The minimum selection is empty only on the empty list. -/
theorem firstMinBy_eq_none_iff {α : Type} (l : List (Nat × α)) :
    firstMinBy l = none ↔ l = [] := by
  cases l with
  | nil => simp [firstMinBy]
  | cons x xs =>
    rw [firstMinBy]
    rcases h : firstMinBy xs with _ | y
    · simp
    · show (if y.1 < x.1 then some y else some x) = none ↔ x :: xs = []
      split_ifs <;> simp

/-- What the minimum selection returns is a member achieving the
minimum of the first components. -/
theorem firstMinBy_spec {α : Type} (l : List (Nat × α)) :
    ∀ x, firstMinBy l = some x → x ∈ l ∧ ∀ y ∈ l, x.1 ≤ y.1 := by
  induction l with
  | nil =>
    intro x hx
    cases hx
  | cons a as ih =>
    intro x hx
    rw [firstMinBy] at hx
    rcases h : firstMinBy as with _ | y
    · rw [h] at hx
      obtain rfl : a = x := by injection hx
      have hemp : as = [] := (firstMinBy_eq_none_iff as).mp h
      subst hemp
      exact ⟨List.mem_cons_self a [], by simp⟩
    · rw [h] at hx
      have hx2 : (if y.1 < a.1 then some y else some a) = some x := hx
      obtain ⟨hym, hymin⟩ := ih y h
      by_cases hc : y.1 < a.1
      · rw [if_pos hc] at hx2
        obtain rfl : y = x := by injection hx2
        refine ⟨List.mem_cons_of_mem a hym, fun z hz => ?_⟩
        rcases List.mem_cons.mp hz with rfl | hzs
        · omega
        · exact hymin z hzs
      · rw [if_neg hc] at hx2
        obtain rfl : a = x := by injection hx2
        refine ⟨List.mem_cons_self a as, fun z hz => ?_⟩
        rcases List.mem_cons.mp hz with rfl | hzs
        · omega
        · have := hymin z hzs
          omega

